import Mathlib

/-!
Shallow embedding of `sudoku.py`: the constraint checker (`move_valid`,
`is_valid`, `is_complete`) and the backtracking solver (`solver`).

A board is a list of rows, each a list of naturals, exactly as the Python
code's list-of-lists; `0` denotes an empty cell.  The solver mutates the
board in place and communicates a solution only by printing it, so it is
embedded in state-passing style: it returns the final board together with
the list of boards handed to `print_board` (the excluded rendering
collaborator).  The recursion is indexed by fuel; fuel stability is proved
for the claims that need it.
-/

namespace Sudoku

/-- A Sudoku board as in the source: a list of rows. `0` = empty cell. -/
abbrev Board := List (List Nat)

/-- `board[row][col]`: read a cell.  Verified statements keep indices in
range, where the fallback value is never consulted. -/
def getCell (b : Board) (r c : Nat) : Nat := (b.getD r []).getD c 0

/-- `board[row][col] = v`: write a cell. -/
def setCell (b : Board) (r c v : Nat) : Board :=
  b.set r ((b.getD r []).set c v)

/-- The board is a well-formed 9x9 grid. -/
def wf9 (b : Board) : Prop :=
  b.length = 9 ∧ ∀ r, r < 9 → (b.getD r []).length = 9

instance (b : Board) : Decidable (wf9 b) :=
  inferInstanceAs (Decidable (_ ∧ _))

/-- `int(sqrt(n))` of the source: the floor square root (the number of
`k ≥ 1` with `k * k ≤ n`), written so that it evaluates by kernel
reduction.  On the only length the claims use, `isqrt 9 = 3`. -/
def isqrt (n : Nat) : Nat :=
  (List.range (n + 1)).countP fun k => decide (0 < k ∧ k * k ≤ n)

/-- `move_valid(board, row, col, num)` from the source: scan the row, the
column and the box, each scan skipping the target cell itself, and report
whether `num` collides nowhere. -/
def move_valid (b : Board) (row col num : Nat) : Bool :=
  -- check that number is distinct in its row
  ((List.range (b.getD 0 []).length).all fun i =>
    i == col || !(getCell b row i == num)) &&
  -- check that number is distinct in its column
  ((List.range b.length).all fun i =>
    i == row || !(getCell b i col == num)) &&
  -- check that the number is distinct in its box
  (let box_size := isqrt b.length
   let box_y := row / box_size * box_size
   let box_x := col / box_size * box_size
   (List.range box_size).all fun i =>
     (List.range box_size).all fun j =>
       (box_y + i == row && box_x + j == col) ||
         !(getCell b (box_y + i) (box_x + j) == num))

/-- `is_valid(board)` from the source: for every cell, read its value and
run the same three scans (row, column, box, each excluding the cell itself)
against that value; the cell's value is *not* special-cased when it is 0. -/
def is_valid (b : Board) : Bool :=
  (List.range b.length).all fun row =>
    (List.range (b.getD 0 []).length).all fun col =>
      let num := getCell b row col
      ((List.range (b.getD 0 []).length).all fun i =>
        i == col || !(getCell b row i == num)) &&
      ((List.range b.length).all fun i =>
        i == row || !(getCell b i col == num)) &&
      (let box_size := isqrt b.length
       let box_y := row / box_size * box_size
       let box_x := col / box_size * box_size
       (List.range box_size).all fun i =>
         (List.range box_size).all fun j =>
           (box_y + i == row && box_x + j == col) ||
             !(getCell b (box_y + i) (box_x + j) == num))

/-- `is_complete(board)` from the source: no cell holds 0. -/
def is_complete (b : Board) : Bool :=
  (List.range b.length).all fun row =>
    (List.range (b.getD 0 []).length).all fun col =>
      !(getCell b row col == 0)

/-- All cells of the board in row-major order, over the same index ranges
the source's loops use. -/
def cellsOf (b : Board) : List (Nat × Nat) :=
  (List.range b.length).flatMap fun r =>
    (List.range (b.getD 0 []).length).map fun c => (r, c)

/-- The row-major scan for the first empty cell at the top of `solver`. -/
def findEmpty (b : Board) : Option (Nat × Nat) :=
  (cellsOf b).find? fun p => getCell b p.1 p.2 == 0

/-- The `for num in range(1, 10)` loop of `solver`: try each candidate in
turn; a legal candidate is written into the cell and the search recurses
(via `solve1`) on the updated board.  There is no success signal, so the
loop always runs through all candidates; printed boards accumulate. -/
def tryNums (solve1 : Board → Board × List Board) (r c : Nat) :
    Board → List Nat → Board × List Board
  | b, [] => (b, [])
  | b, num :: rest =>
    if move_valid b r c num then
      let p := solve1 (setCell b r c num)
      let q := tryNums solve1 r c p.1 rest
      (q.1, p.2 ++ q.2)
    else tryNums solve1 r c b rest

/-- Fuel-indexed embedding of `solver`: find the first empty cell; if none,
print the board (record it in the output list); otherwise run the candidate
loop and then reset the cell to 0 (the unconditional backtrack). -/
def solverF : Nat → Board → Board × List Board
  | 0, b => (b, [])
  | fuel + 1, b =>
    match findEmpty b with
    | some (r, c) =>
      let p := tryNums (fun bb => solverF fuel bb) r c b (List.range' 1 9)
      (setCell p.1 r c 0, p.2)
    | none => (b, [b])

/-- Number of empty cells on the board: the solver's termination measure. -/
def numZeros (b : Board) : Nat := (b.map fun row => row.count 0).sum

/-- `solver(board)`: the recursion needs at most one frame per empty cell
plus the final full scan, so fuel `numZeros b + 1` realizes the source's
unbounded recursion (fuel-stability is proved below). -/
def solver (b : Board) : Board × List Board := solverF (numZeros b + 1) b

/-- The whole-grid validator as the spec's sentence for claim C1 words it:
identical to `is_valid` except that a cell holding 0 is exempt from the
scan.  (Second definition for the comparison; `is_valid` above is the
translation of the source.) -/
def isValidExempt (b : Board) : Bool :=
  (List.range b.length).all fun row =>
    (List.range (b.getD 0 []).length).all fun col =>
      let num := getCell b row col
      num == 0 ||
      (((List.range (b.getD 0 []).length).all fun i =>
        i == col || !(getCell b row i == num)) &&
      ((List.range b.length).all fun i =>
        i == row || !(getCell b i col == num)) &&
      (let box_size := isqrt b.length
       let box_y := row / box_size * box_size
       let box_x := col / box_size * box_size
       (List.range box_size).all fun i =>
         (List.range box_size).all fun j =>
           (box_y + i == row && box_x + j == col) ||
             !(getCell b (box_y + i) (box_x + j) == num)))

/-- `s` is a solved state extending `b`: well-formed, every value in
`[1, 9]`, complete, valid, and agreeing with `b` on every nonzero cell. -/
def Solves (s b : Board) : Prop :=
  wf9 s ∧
  (∀ r, r < 9 → ∀ c, c < 9 → 1 ≤ getCell s r c ∧ getCell s r c ≤ 9) ∧
  is_complete s = true ∧ is_valid s = true ∧
  (∀ r, r < 9 → ∀ c, c < 9 → getCell b r c ≠ 0 → getCell s r c = getCell b r c)

instance (s b : Board) : Decidable (Solves s b) :=
  inferInstanceAs (Decidable (_ ∧ _ ∧ _ ∧ _ ∧ _))

/-- Column `c` of the board as a list. -/
def colList (b : Board) (c : Nat) : List Nat :=
  (List.range 9).map fun r => getCell b r c

/-- Box `(p, q)` (each in `[0, 2]`) of the board as a list, cells in
row-major order. -/
def boxList (b : Board) (p q : Nat) : List Nat :=
  (List.range 9).map fun t => getCell b (p * 3 + t / 3) (q * 3 + t % 3)

/-- The row scan of the checker with the board threaded through every step.
The source performs only reads here; making the state explicit turns the
absence of mutation into a provable statement. -/
def rowScanS (row col num : Nat) : Board → List Nat → Bool × Board
  | b, [] => (true, b)
  | b, i :: rest =>
    if i != col then
      if getCell b row i == num then (false, b)
      else rowScanS row col num b rest
    else rowScanS row col num b rest

/-- The column scan, state-passing. -/
def colScanS (row col num : Nat) : Board → List Nat → Bool × Board
  | b, [] => (true, b)
  | b, i :: rest =>
    if i != row then
      if getCell b i col == num then (false, b)
      else colScanS row col num b rest
    else colScanS row col num b rest

/-- The cells of the box of `(row, col)`, in scan order. -/
def boxCells (b : Board) (row col : Nat) : List (Nat × Nat) :=
  let box_size := isqrt b.length
  let box_y := row / box_size * box_size
  let box_x := col / box_size * box_size
  (List.range box_size).flatMap fun i =>
    (List.range box_size).map fun j => (box_y + i, box_x + j)

/-- The box scan, state-passing. -/
def boxScanS (row col num : Nat) : Board → List (Nat × Nat) → Bool × Board
  | b, [] => (true, b)
  | b, q :: rest =>
    if !(q.1 == row && q.2 == col) then
      if getCell b q.1 q.2 == num then (false, b)
      else boxScanS row col num b rest
    else boxScanS row col num b rest

/-- `move_valid` with the board state threaded through the three scans. -/
def move_validS (b : Board) (row col num : Nat) : Bool × Board :=
  let p1 := rowScanS row col num b (List.range (b.getD 0 []).length)
  if p1.1 then
    let p2 := colScanS row col num p1.2 (List.range p1.2.length)
    if p2.1 then boxScanS row col num p2.2 (boxCells p2.2 row col)
    else (false, p2.2)
  else (false, p1.2)

/-- `is_valid` with the board state threaded cell by cell. -/
def is_validS_go : Board → List (Nat × Nat) → Bool × Board
  | b, [] => (true, b)
  | b, q :: rest =>
    let p := move_validS b q.1 q.2 (getCell b q.1 q.2)
    if p.1 then is_validS_go p.2 rest else (false, p.2)

/-- `is_valid` in state-passing form. -/
def is_validS (b : Board) : Bool × Board := is_validS_go b (cellsOf b)

/-- The all-zeros (all-empty) 9x9 board. -/
def zeroGrid : Board := List.replicate 9 (List.replicate 9 0)

/-- A concrete fully solved board (each row a cyclic shift chosen so rows,
columns and boxes all carry 1..9). -/
def solGrid : Board :=
  [[1, 2, 3, 4, 5, 6, 7, 8, 9],
   [4, 5, 6, 7, 8, 9, 1, 2, 3],
   [7, 8, 9, 1, 2, 3, 4, 5, 6],
   [2, 3, 4, 5, 6, 7, 8, 9, 1],
   [5, 6, 7, 8, 9, 1, 2, 3, 4],
   [8, 9, 1, 2, 3, 4, 5, 6, 7],
   [3, 4, 5, 6, 7, 8, 9, 1, 2],
   [6, 7, 8, 9, 1, 2, 3, 4, 5],
   [9, 1, 2, 3, 4, 5, 6, 7, 8]]

/-- `solGrid` with its top-left cell emptied: a solvable board with exactly
one empty cell. -/
def oneHole : Board := setCell solGrid 0 0 0

/-! ### Cell access algebra -/

theorem isqrt_nine : isqrt 9 = 3 := by decide

theorem set_getD_self {α : Type} (l : List α) (n : Nat) (d : α) (h : n < l.length) :
    l.set n (l.getD n d) = l := by
  induction l generalizing n with
  | nil => simp at h
  | cons a t ih =>
    cases n with
    | zero => simp
    | succ m =>
      have hm : m < t.length := by simpa using h
      simp only [List.getD_cons_succ, List.set_cons_succ, ih m hm]

theorem length_setCell (b : Board) (r c v : Nat) :
    (setCell b r c v).length = b.length := by
  simp [setCell]

theorem getD_setCell_ne (b : Board) (r c v r' : Nat) (h : r' ≠ r) :
    (setCell b r c v).getD r' [] = b.getD r' [] := by
  simp only [setCell, List.getD_eq_getElem?_getD, List.getElem?_set_ne (Ne.symm h)]

theorem getD_setCell_self (b : Board) (r c v : Nat) (h : r < b.length) :
    (setCell b r c v).getD r [] = (b.getD r []).set c v := by
  simp only [setCell, List.getD_eq_getElem?_getD, List.getElem?_set_self h,
    Option.getD_some]

theorem setCell_oob (b : Board) (r c v : Nat) (h : b.length ≤ r) :
    setCell b r c v = b :=
  List.set_eq_of_length_le h

theorem rowLen_setCell (b : Board) (r c v r' : Nat) :
    ((setCell b r c v).getD r' []).length = (b.getD r' []).length := by
  rcases eq_or_ne r' r with rfl | hne
  · rcases Nat.lt_or_ge r' b.length with h | h
    · rw [getD_setCell_self _ _ _ _ h, List.length_set]
    · rw [setCell_oob _ _ _ _ h]
  · rw [getD_setCell_ne _ _ _ _ _ hne]

theorem getCell_setCell_ne (b : Board) (r c v r' c' : Nat)
    (h : ¬(r' = r ∧ c' = c)) :
    getCell (setCell b r c v) r' c' = getCell b r' c' := by
  rcases eq_or_ne r' r with rfl | hne
  · have hc : c' ≠ c := fun hcc => h ⟨rfl, hcc⟩
    rcases Nat.lt_or_ge r' b.length with hr | hr
    · rw [getCell, getD_setCell_self _ _ _ _ hr, getCell]
      simp only [List.getD_eq_getElem?_getD, List.getElem?_set_ne (Ne.symm hc)]
    · rw [setCell_oob _ _ _ _ hr]
  · rw [getCell, getD_setCell_ne _ _ _ _ _ hne, getCell]

theorem getCell_setCell_self (b : Board) (r c v : Nat)
    (hr : r < b.length) (hc : c < (b.getD r []).length) :
    getCell (setCell b r c v) r c = v := by
  rw [getCell, getD_setCell_self _ _ _ _ hr]
  rw [List.getD_eq_getElem?_getD] at hc
  simp only [List.getD_eq_getElem?_getD, List.getElem?_set_self hc, Option.getD_some]

theorem setCell_setCell (b : Board) (r c v w : Nat) :
    setCell (setCell b r c v) r c w = setCell b r c w := by
  rcases Nat.lt_or_ge r b.length with hr | hr
  · rw [setCell, getD_setCell_self _ _ _ _ hr, List.set_set, setCell,
      setCell, List.set_set]
  · rw [setCell_oob _ _ _ _ hr]

theorem setCell_getCell_self (b : Board) (r c : Nat) :
    setCell b r c (getCell b r c) = b := by
  rcases Nat.lt_or_ge r b.length with hr | hr
  · rcases Nat.lt_or_ge c (b.getD r []).length with hc | hc
    · rw [setCell, getCell, set_getD_self _ _ _ hc, set_getD_self _ _ _ hr]
    · rw [setCell, getCell, List.set_eq_of_length_le hc, set_getD_self _ _ _ hr]
  · exact setCell_oob _ _ _ _ hr

theorem wf9_setCell (b : Board) (r c v : Nat) (hb : wf9 b) :
    wf9 (setCell b r c v) := by
  refine ⟨by rw [length_setCell, hb.1], fun r' hr' => ?_⟩
  rw [rowLen_setCell]
  exact hb.2 r' hr'

/-! ### Propositional characterizations of the checker -/

theorem move_valid_eq_true_iff (b : Board) (row col num : Nat) :
    move_valid b row col num = true ↔
      ((∀ i < (b.getD 0 []).length, i ≠ col → getCell b row i ≠ num) ∧
       (∀ i < b.length, i ≠ row → getCell b i col ≠ num) ∧
       (∀ i < isqrt b.length, ∀ j < isqrt b.length,
         ¬(row / isqrt b.length * isqrt b.length + i = row ∧
           col / isqrt b.length * isqrt b.length + j = col) →
         getCell b (row / isqrt b.length * isqrt b.length + i)
           (col / isqrt b.length * isqrt b.length + j) ≠ num)) := by
  simp only [move_valid, Bool.and_eq_true, List.all_eq_true, List.mem_range,
    Bool.or_eq_true, Bool.not_eq_true', beq_iff_eq, beq_eq_false_iff_ne,
    or_iff_not_imp_left]
  exact and_assoc

theorem is_valid_iff_cells (b : Board) :
    is_valid b = true ↔ ∀ row < b.length, ∀ col < (b.getD 0 []).length,
      move_valid b row col (getCell b row col) = true := by
  simp only [is_valid, move_valid, List.all_eq_true, List.mem_range]

theorem is_complete_iff (b : Board) :
    is_complete b = true ↔
      ∀ r < b.length, ∀ c < (b.getD 0 []).length, getCell b r c ≠ 0 := by
  simp only [is_complete, List.all_eq_true, List.mem_range, Bool.not_eq_true',
    beq_eq_false_iff_ne]

theorem isValidExempt_iff (b : Board) :
    isValidExempt b = true ↔ ∀ row < b.length, ∀ col < (b.getD 0 []).length,
      getCell b row col = 0 ∨ move_valid b row col (getCell b row col) = true := by
  simp only [isValidExempt, move_valid, List.all_eq_true, List.mem_range,
    Bool.or_eq_true, beq_iff_eq]

theorem move_valid9_iff (b : Board) (row col num : Nat) (hb : wf9 b) :
    move_valid b row col num = true ↔
      ((∀ i < 9, i ≠ col → getCell b row i ≠ num) ∧
       (∀ i < 9, i ≠ row → getCell b i col ≠ num) ∧
       (∀ i < 3, ∀ j < 3,
         ¬(row / 3 * 3 + i = row ∧ col / 3 * 3 + j = col) →
         getCell b (row / 3 * 3 + i) (col / 3 * 3 + j) ≠ num)) := by
  rw [move_valid_eq_true_iff, hb.1, hb.2 0 (by norm_num), isqrt_nine]

theorem is_valid9_iff (b : Board) (hb : wf9 b) :
    is_valid b = true ↔ ∀ row < 9, ∀ col < 9,
      move_valid b row col (getCell b row col) = true := by
  rw [is_valid_iff_cells, hb.1, hb.2 0 (by norm_num)]

theorem is_complete9_iff (b : Board) (hb : wf9 b) :
    is_complete b = true ↔ ∀ r < 9, ∀ c < 9, getCell b r c ≠ 0 := by
  rw [is_complete_iff, hb.1, hb.2 0 (by norm_num)]

theorem isValidExempt9_iff (b : Board) (hb : wf9 b) :
    isValidExempt b = true ↔ ∀ row < 9, ∀ col < 9,
      getCell b row col = 0 ∨ move_valid b row col (getCell b row col) = true := by
  rw [isValidExempt_iff, hb.1, hb.2 0 (by norm_num)]

theorem is_valid_of_exempt_complete (b : Board) (hb : wf9 b)
    (he : isValidExempt b = true) (hc : is_complete b = true) :
    is_valid b = true := by
  rw [is_valid9_iff b hb]
  intro row hrow col hcol
  rcases (isValidExempt9_iff b hb).mp he row hrow col hcol with h0 | hmv
  · exact absurd h0 ((is_complete9_iff b hb).mp hc row hrow col hcol)
  · exact hmv

/-! ### The scans ignore the target cell -/

theorem move_valid_congr (b b' : Board) (r c v : Nat)
    (hlen : b'.length = b.length)
    (hrow0 : (b'.getD 0 []).length = (b.getD 0 []).length)
    (hcell : ∀ r' c', ¬(r' = r ∧ c' = c) → getCell b' r' c' = getCell b r' c') :
    move_valid b' r c v = move_valid b r c v := by
  rw [Bool.eq_iff_iff, move_valid_eq_true_iff, move_valid_eq_true_iff, hlen, hrow0]
  constructor
  · rintro ⟨h1, h2, h3⟩
    refine ⟨fun i hi hic => ?_, fun i hi hir => ?_, fun i hi j hj hnb => ?_⟩
    · rw [← hcell r i fun hh => hic hh.2]; exact h1 i hi hic
    · rw [← hcell i c fun hh => hir hh.1]; exact h2 i hi hir
    · rw [← hcell _ _ hnb]; exact h3 i hi j hj hnb
  · rintro ⟨h1, h2, h3⟩
    refine ⟨fun i hi hic => ?_, fun i hi hir => ?_, fun i hi j hj hnb => ?_⟩
    · rw [hcell r i fun hh => hic hh.2]; exact h1 i hi hic
    · rw [hcell i c fun hh => hir hh.1]; exact h2 i hi hir
    · rw [hcell _ _ hnb]; exact h3 i hi j hj hnb

theorem move_valid_setCell (b : Board) (r c v w : Nat) :
    move_valid (setCell b r c w) r c v = move_valid b r c v :=
  move_valid_congr b (setCell b r c w) r c v (length_setCell b r c w)
    (rowLen_setCell b r c w 0)
    (fun r' c' h => getCell_setCell_ne b r c w r' c' h)

/-! ### The scan for the first empty cell -/

theorem mem_cellsOf (b : Board) (r c : Nat) :
    (r, c) ∈ cellsOf b ↔ r < b.length ∧ c < (b.getD 0 []).length := by
  simp [cellsOf, List.mem_flatMap, List.mem_map, List.mem_range]

theorem findEmpty_eq_none_iff (b : Board) :
    findEmpty b = none ↔ is_complete b = true := by
  rw [findEmpty, List.find?_eq_none, is_complete_iff]
  constructor
  · intro h r hr c hc
    simpa using h (r, c) ((mem_cellsOf b r c).mpr ⟨hr, hc⟩)
  · rintro h ⟨r, c⟩ hp
    obtain ⟨hr, hc⟩ := (mem_cellsOf b r c).mp hp
    simpa using h r hr c hc

theorem findEmpty_some (b : Board) (r c : Nat) (h : findEmpty b = some (r, c)) :
    r < b.length ∧ c < (b.getD 0 []).length ∧ getCell b r c = 0 := by
  have hmem := List.mem_of_find?_eq_some h
  have hpred := List.find?_some h
  obtain ⟨hr, hc⟩ := (mem_cellsOf b r c).mp hmem
  exact ⟨hr, hc, by simpa using hpred⟩

/-! ### The termination measure -/

theorem count_zero_set (l : List Nat) (c v : Nat) (hc : c < l.length)
    (h0 : l.getD c 0 = 0) (hv : v ≠ 0) :
    (l.set c v).count 0 + 1 = l.count 0 := by
  induction l generalizing c with
  | nil => simp at hc
  | cons a t ih =>
    cases c with
    | zero =>
      simp only [List.getD_cons_zero] at h0
      subst h0
      simp [List.count_cons_self, List.count_cons_of_ne (Ne.symm hv)]
    | succ m =>
      simp only [List.getD_cons_succ] at h0
      have hm : m < t.length := by simpa using hc
      have hrec := ih m hm h0
      rcases eq_or_ne a 0 with rfl | ha
      · simp only [List.set_cons_succ, List.count_cons_self]
        omega
      · simp only [List.set_cons_succ, List.count_cons_of_ne (Ne.symm ha)]
        exact hrec

theorem numZeros_cons (row : List Nat) (t : List (List Nat)) :
    numZeros (row :: t) = row.count 0 + numZeros t := by
  simp [numZeros]

theorem numZeros_setCell (b : Board) (r c v : Nat) (hr : r < b.length)
    (hc : c < (b.getD r []).length) (h0 : getCell b r c = 0) (hv : v ≠ 0) :
    numZeros (setCell b r c v) + 1 = numZeros b := by
  induction b generalizing r with
  | nil => simp at hr
  | cons row t ih =>
    cases r with
    | zero =>
      have hc' : c < row.length := by simpa using hc
      have h0' : row.getD c 0 = 0 := by simpa [getCell] using h0
      have := count_zero_set row c v hc' h0' hv
      simp only [setCell, List.getD_cons_zero, List.set_cons_zero, numZeros_cons]
      omega
    | succ m =>
      have hm : m < t.length := by simpa using hr
      have hc' : c < (t.getD m []).length := by simpa using hc
      have h0' : getCell t m c = 0 := by simpa [getCell] using h0
      have hrec := ih m hm hc' h0'
      simp only [setCell, List.getD_cons_succ, List.set_cons_succ, numZeros_cons]
      simp only [setCell] at hrec
      omega

theorem numZeros_le_81 (b : Board) (hb : wf9 b) : numZeros b ≤ 81 := by
  have hrows : ∀ x ∈ b.map fun row => row.count 0, x ≤ 9 := by
    intro x hx
    obtain ⟨row, hrow, rfl⟩ := List.mem_map.mp hx
    obtain ⟨i, hi, rfl⟩ := List.mem_iff_getElem.mp hrow
    calc b[i].count 0 ≤ b[i].length := List.count_le_length _ _
      _ = 9 := by
        have h9 := hb.2 i (hb.1 ▸ hi)
        rwa [List.getD_eq_getElem b [] hi] at h9
  have hsum := List.sum_le_card_nsmul (b.map fun row => row.count 0) 9 hrows
  have hlen : (b.map fun row => row.count 0).length = 9 := by
    rw [List.length_map, hb.1]
  rw [numZeros]
  calc (b.map fun row => row.count 0).sum
      ≤ (b.map fun row => row.count 0).length • 9 := hsum
    _ = 81 := by rw [hlen]; rfl

/-! ### Restoration and the unfolding of the solver -/

theorem tryNums_fst (s1 : Board → Board × List Board)
    (hs1 : ∀ bb, (s1 bb).1 = bb) (r c x : Nat) :
    ∀ (nums : List Nat) (b : Board),
      setCell (tryNums s1 r c b nums).1 r c x = setCell b r c x := by
  intro nums
  induction nums with
  | nil => intro b; rfl
  | cons num rest ih =>
    intro b
    cases hmv : move_valid b r c num with
    | true =>
      simp only [tryNums, hmv, if_true]
      rw [hs1 (setCell b r c num), ih (setCell b r c num), setCell_setCell]
    | false =>
      simp only [tryNums, hmv, Bool.false_eq_true, if_false]
      exact ih b

theorem solverF_fst : ∀ (fuel : Nat) (b : Board), (solverF fuel b).1 = b := by
  intro fuel
  induction fuel with
  | zero => intro b; rfl
  | succ n ih =>
    intro b
    cases hfe : findEmpty b with
    | none => simp [solverF, hfe]
    | some rc =>
      obtain ⟨r, c⟩ := rc
      obtain ⟨hr, hc, h0⟩ := findEmpty_some b r c hfe
      simp only [solverF, hfe]
      rw [tryNums_fst (fun bb => solverF n bb) ih r c 0 (List.range' 1 9) b]
      rw [← h0]
      exact setCell_getCell_self b r c

theorem tryNums_snd (fuel : Nat) (b : Board) (r c : Nat) :
    ∀ (nums : List Nat) (bs : Board),
      (∀ x, setCell bs r c x = setCell b r c x) →
      (tryNums (fun bb => solverF fuel bb) r c bs nums).2 =
        nums.flatMap (fun num =>
          if move_valid b r c num then (solverF fuel (setCell b r c num)).2
          else []) := by
  intro nums
  induction nums with
  | nil => intro bs hP; rfl
  | cons num rest ih =>
    intro bs hP
    have hmv_eq : move_valid bs r c num = move_valid b r c num := by
      calc move_valid bs r c num
          = move_valid (setCell bs r c 0) r c num :=
            (move_valid_setCell bs r c num 0).symm
        _ = move_valid (setCell b r c 0) r c num := by rw [hP 0]
        _ = move_valid b r c num := move_valid_setCell b r c num 0
    cases hmv : move_valid b r c num with
    | true =>
      simp only [tryNums, hmv_eq, hmv, if_true, List.flatMap_cons]
      rw [hP num, solverF_fst fuel (setCell b r c num),
        ih (setCell b r c num) (fun x => setCell_setCell b r c num x)]
    | false =>
      simp only [tryNums, hmv_eq, hmv, Bool.false_eq_true, if_false,
        List.flatMap_cons, List.nil_append]
      exact ih bs hP

theorem solverF_snd_none (fuel : Nat) (b : Board) (hfe : findEmpty b = none) :
    (solverF (fuel + 1) b).2 = [b] := by
  simp [solverF, hfe]

theorem solverF_snd_some (fuel : Nat) (b : Board) (r c : Nat)
    (hfe : findEmpty b = some (r, c)) :
    (solverF (fuel + 1) b).2 =
      (List.range' 1 9).flatMap fun num =>
        if move_valid b r c num then (solverF fuel (setCell b r c num)).2
        else [] := by
  simp only [solverF, hfe]
  exact tryNums_snd fuel b r c (List.range' 1 9) b (fun x => rfl)


/-! ### Fuel stability -/

theorem solverF_stable (n : Nat) :
    ∀ (b : Board) (f1 f2 : Nat), wf9 b → numZeros b = n → n < f1 → n < f2 →
      solverF f1 b = solverF f2 b := by
  induction n using Nat.strong_induction_on with
  | _ n ih =>
    intro b f1 f2 hb hn h1 h2
    obtain ⟨k1, rfl⟩ : ∃ k, f1 = k + 1 := ⟨f1 - 1, by omega⟩
    obtain ⟨k2, rfl⟩ : ∃ k, f2 = k + 1 := ⟨f2 - 1, by omega⟩
    have hfst : (solverF (k1 + 1) b).1 = (solverF (k2 + 1) b).1 := by
      rw [solverF_fst, solverF_fst]
    cases hfe : findEmpty b with
    | none =>
      refine Prod.ext hfst ?_
      rw [solverF_snd_none k1 b hfe, solverF_snd_none k2 b hfe]
    | some rc =>
      obtain ⟨r, c⟩ := rc
      obtain ⟨hr, hc, h0⟩ := findEmpty_some b r c hfe
      refine Prod.ext hfst ?_
      rw [solverF_snd_some k1 b r c hfe, solverF_snd_some k2 b r c hfe]
      apply List.flatMap_congr
      intro num hnum
      cases hmv : move_valid b r c num with
      | false => simp [hmv]
      | true =>
        simp only [hmv, if_true]
        obtain ⟨i, hi9, hieq⟩ := List.mem_range'.mp hnum
        have hnum1 : 1 ≤ num := by omega
        have hcr : c < (b.getD r []).length := by
          rw [hb.2 r (hb.1 ▸ hr)]
          rw [hb.2 0 (by norm_num)] at hc
          exact hc
        have hz := numZeros_setCell b r c num hr hcr h0 (by omega)
        have hwf := wf9_setCell b r c num hb
        have hrec : solverF k1 (setCell b r c num) = solverF k2 (setCell b r c num) :=
          ih (numZeros (setCell b r c num)) (by omega) _ k1 k2 hwf rfl
            (by omega) (by omega)
        rw [hrec]

theorem solverF_eq_solver (b : Board) (f : Nat) (hb : wf9 b)
    (hf : numZeros b < f) : solverF f b = solver b :=
  solverF_stable (numZeros b) b f (numZeros b + 1) hb rfl hf (Nat.lt_succ_self _)


/-! ### Soundness and completeness of the emitted boards -/

theorem solves_move_valid (s b : Board) (r c v : Nat) (h : Solves s b)
    (hb : wf9 b) (hr : r < 9) (hc : c < 9) (hv : getCell s r c = v) :
    move_valid b r c v = true := by
  obtain ⟨hwfs, hrange, hcomp, hvalid, hagree⟩ := h
  have hv1 : 1 ≤ v := hv ▸ (hrange r hr c hc).1
  have hsv := (is_valid9_iff s hwfs).mp hvalid r hr c hc
  rw [hv] at hsv
  obtain ⟨hsrow, hscol, hsbox⟩ := (move_valid9_iff s r c v hwfs).mp hsv
  rw [move_valid9_iff b r c v hb]
  refine ⟨fun i hi hic => ?_, fun i hi hir => ?_, fun i hi j hj hnb => ?_⟩
  · intro hbad
    have hne0 : getCell b r i ≠ 0 := by omega
    have hsi : getCell s r i = v := by rw [hagree r hr i hi hne0, hbad]
    exact hsrow i hi hic hsi
  · intro hbad
    have hne0 : getCell b i c ≠ 0 := by omega
    have hsi : getCell s i c = v := by rw [hagree i hi c hc hne0, hbad]
    exact hscol i hi hir hsi
  · intro hbad
    have hq1 : r / 3 * 3 + i < 9 := by omega
    have hq2 : c / 3 * 3 + j < 9 := by omega
    have hne0 : getCell b (r / 3 * 3 + i) (c / 3 * 3 + j) ≠ 0 := by omega
    have hsi : getCell s (r / 3 * 3 + i) (c / 3 * 3 + j) = v := by
      rw [hagree _ hq1 _ hq2 hne0, hbad]
    exact hsbox i hi j hj hnb hsi

theorem solves_isValidExempt (s b : Board) (h : Solves s b) (hb : wf9 b) :
    isValidExempt b = true := by
  rw [isValidExempt9_iff b hb]
  intro r hr c hc
  rcases eq_or_ne (getCell b r c) 0 with h0 | h0
  · exact Or.inl h0
  · exact Or.inr (solves_move_valid s b r c (getCell b r c) h hb hr hc
      (h.2.2.2.2 r hr c hc h0))

theorem solves_setCell (s b : Board) (r c v : Nat) (h : Solves s b)
    (hb : wf9 b) (hr : r < 9) (hc : c < 9) (hv : getCell s r c = v) :
    Solves s (setCell b r c v) := by
  obtain ⟨hwfs, hrange, hcomp, hvalid, hagree⟩ := h
  refine ⟨hwfs, hrange, hcomp, hvalid, fun r' hr' c' hc' hne => ?_⟩
  rcases Classical.em (r' = r ∧ c' = c) with ⟨rfl, rfl⟩ | hnotrc
  · rw [getCell_setCell_self b r' c' v (hb.1 ▸ hr) (by rw [hb.2 r' hr]; exact hc)]
    exact hv
  · rw [getCell_setCell_ne b r c v r' c' hnotrc] at hne ⊢
    exact hagree r' hr' c' hc' hne

theorem exempt_setCell (b : Board) (r c num : Nat) (hb : wf9 b)
    (he : isValidExempt b = true) (hr : r < 9) (hc : c < 9)
    (h0 : getCell b r c = 0) (_hnum : num ≠ 0)
    (hmv : move_valid b r c num = true) :
    isValidExempt (setCell b r c num) = true := by
  have hwf' := wf9_setCell b r c num hb
  have hbl : r < b.length := hb.1 ▸ hr
  have hcl : c < (b.getD r []).length := by rw [hb.2 r hr]; exact hc
  obtain ⟨hmrow, hmcol, hmbox⟩ := (move_valid9_iff b r c num hb).mp hmv
  rw [isValidExempt9_iff _ hwf']
  intro r' hr' c' hc'
  rcases Classical.em (r' = r ∧ c' = c) with ⟨rfl, rfl⟩ | hne
  · right
    rw [getCell_setCell_self b r' c' num hbl hcl]
    rw [move_valid9_iff _ _ _ _ hwf']
    refine ⟨fun i hi hic => ?_, fun i hi hir => ?_, fun i hi j hj hnb => ?_⟩
    · rw [getCell_setCell_ne b r' c' num r' i (fun hh => hic hh.2)]
      exact hmrow i hi hic
    · rw [getCell_setCell_ne b r' c' num i c' (fun hh => hir hh.1)]
      exact hmcol i hi hir
    · rw [getCell_setCell_ne b r' c' num _ _ hnb]
      exact hmbox i hi j hj hnb
  · rw [getCell_setCell_ne b r c num r' c' hne]
    rcases (isValidExempt9_iff b hb).mp he r' hr' c' hc' with hz | hold
    · exact Or.inl hz
    · right
      obtain ⟨horow, hocol, hobox⟩ :=
        (move_valid9_iff b r' c' (getCell b r' c') hb).mp hold
      rw [move_valid9_iff _ _ _ _ hwf']
      refine ⟨fun i hi hic => ?_, fun i hi hir => ?_, fun i hi j hj hnb => ?_⟩
      · rcases Classical.em (r' = r ∧ i = c) with ⟨rfl, rfl⟩ | hne2
        · rw [getCell_setCell_self b r' i num hbl hcl]
          have hcc : c' ≠ i := fun hcc => hne ⟨rfl, hcc⟩
          intro hbad
          exact hmrow c' hc' hcc (hbad ▸ rfl)
        · rw [getCell_setCell_ne b r c num r' i hne2]
          exact horow i hi hic
      · rcases Classical.em (i = r ∧ c' = c) with ⟨rfl, rfl⟩ | hne2
        · rw [getCell_setCell_self b i c' num hbl hcl]
          have hrr : r' ≠ i := fun hrr => hne ⟨hrr, rfl⟩
          intro hbad
          exact hmcol r' hr' hrr (hbad ▸ rfl)
        · rw [getCell_setCell_ne b r c num i c' hne2]
          exact hocol i hi hir
      · rcases Classical.em (r' / 3 * 3 + i = r ∧ c' / 3 * 3 + j = c) with
          ⟨hqr, hqc⟩ | hne2
        · have hdivr : r / 3 = r' / 3 := by omega
          have hdivc : c / 3 = c' / 3 := by omega
          have hi' : r' - r / 3 * 3 < 3 := by omega
          have hj' : c' - c / 3 * 3 < 3 := by omega
          have hco1 : r / 3 * 3 + (r' - r / 3 * 3) = r' := by omega
          have hco2 : c / 3 * 3 + (c' - c / 3 * 3) = c' := by omega
          have hnb' : ¬(r / 3 * 3 + (r' - r / 3 * 3) = r ∧
              c / 3 * 3 + (c' - c / 3 * 3) = c) := by
            rw [hco1, hco2]; exact hne
          have hval := hmbox (r' - r / 3 * 3) hi' (c' - c / 3 * 3) hj' hnb'
          rw [hco1, hco2] at hval
          rw [hqr, hqc, getCell_setCell_self b r c num hbl hcl]
          intro hbad
          exact hval (hbad ▸ rfl)
        · rw [getCell_setCell_ne b r c num _ _ hne2]
          exact hobox i hi j hj hnb


theorem solverF_sound :
    ∀ (fuel : Nat) (b : Board), wf9 b → isValidExempt b = true →
      ∀ p ∈ (solverF fuel b).2, wf9 p ∧ is_complete p = true ∧ is_valid p = true := by
  intro fuel
  induction fuel with
  | zero => intro b hb he p hp; simp [solverF] at hp
  | succ k ih =>
    intro b hb he p hp
    cases hfe : findEmpty b with
    | none =>
      rw [solverF_snd_none k b hfe] at hp
      simp only [List.mem_singleton] at hp
      subst hp
      have hcomp := (findEmpty_eq_none_iff p).mp hfe
      exact ⟨hb, hcomp, is_valid_of_exempt_complete p hb he hcomp⟩
    | some rc =>
      obtain ⟨r, c⟩ := rc
      obtain ⟨hr, hc, h0⟩ := findEmpty_some b r c hfe
      rw [solverF_snd_some k b r c hfe] at hp
      obtain ⟨num, hnum, hpmem⟩ := List.mem_flatMap.mp hp
      cases hmv : move_valid b r c num with
      | false => rw [hmv] at hpmem; simp at hpmem
      | true =>
        rw [hmv] at hpmem
        simp only [if_true] at hpmem
        obtain ⟨i, hi9, hieq⟩ := List.mem_range'.mp hnum
        have hr9 : r < 9 := hb.1 ▸ hr
        have hc9 : c < 9 := by rw [hb.2 0 (by norm_num)] at hc; exact hc
        have hexempt : isValidExempt (setCell b r c num) = true :=
          exempt_setCell b r c num hb he hr9 hc9 h0 (by omega) hmv
        exact ih (setCell b r c num) (wf9_setCell b r c num hb) hexempt p hpmem

theorem solverF_complete (n : Nat) :
    ∀ (b : Board) (fuel : Nat), wf9 b → numZeros b = n → n < fuel →
      (∃ s, Solves s b) → (solverF fuel b).2 ≠ [] := by
  induction n using Nat.strong_induction_on with
  | _ n ih =>
    rintro b fuel hb hn hf ⟨s, hs⟩
    obtain ⟨k, rfl⟩ : ∃ k, fuel = k + 1 := ⟨fuel - 1, by omega⟩
    cases hfe : findEmpty b with
    | none => rw [solverF_snd_none k b hfe]; simp
    | some rc =>
      obtain ⟨r, c⟩ := rc
      obtain ⟨hr, hc, h0⟩ := findEmpty_some b r c hfe
      rw [solverF_snd_some k b r c hfe]
      have hr9 : r < 9 := hb.1 ▸ hr
      have hc9 : c < 9 := by rw [hb.2 0 (by norm_num)] at hc; exact hc
      have hv19 := hs.2.1 r hr9 c hc9
      have hmv : move_valid b r c (getCell s r c) = true :=
        solves_move_valid s b r c (getCell s r c) hs hb hr9 hc9 rfl
      have hvmem : getCell s r c ∈ List.range' 1 9 := by
        rw [List.mem_range']
        exact ⟨getCell s r c - 1, by omega, by omega⟩
      have hcr : c < (b.getD r []).length := by rw [hb.2 r hr9]; exact hc9
      have hz := numZeros_setCell b r c (getCell s r c) hr hcr h0 (by omega)
      have hwf := wf9_setCell b r c (getCell s r c) hb
      have hsolves : Solves s (setCell b r c (getCell s r c)) :=
        solves_setCell s b r c (getCell s r c) hs hb hr9 hc9 rfl
      have hne : (solverF k (setCell b r c (getCell s r c))).2 ≠ [] :=
        ih (numZeros (setCell b r c (getCell s r c))) (by omega) _ k hwf rfl
          (by omega) ⟨s, hsolves⟩
      intro hcontra
      rw [List.flatMap_eq_nil_iff] at hcontra
      have hpiece := hcontra (getCell s r c) hvmem
      rw [hmv] at hpiece
      simp only [if_true] at hpiece
      exact hne hpiece


/-! ### Rows, columns and boxes as permutations of 1..9 -/

theorem nodup_of_getElem_ne (l : List Nat)
    (h : ∀ i j, i < l.length → j < l.length → i ≠ j →
      l.getD i 0 ≠ l.getD j 0) : l.Nodup := by
  rw [List.nodup_iff_injective_getElem]
  rintro ⟨i, hi⟩ ⟨j, hj⟩ hij
  by_contra hne
  have hij' : i ≠ j := by simpa using hne
  apply h i j hi hj hij'
  rw [List.getD_eq_getElem l 0 hi, List.getD_eq_getElem l 0 hj]
  simpa using hij

theorem getD_ne_of_nodup (l : List Nat) (hnd : l.Nodup) (i j : Nat)
    (hi : i < l.length) (hj : j < l.length) (hij : i ≠ j) :
    l.getD i 0 ≠ l.getD j 0 := by
  rw [List.nodup_iff_injective_getElem] at hnd
  rw [List.getD_eq_getElem l 0 hi, List.getD_eq_getElem l 0 hj]
  intro heq
  have : (⟨i, hi⟩ : Fin l.length) = ⟨j, hj⟩ := hnd (by simpa using heq)
  exact hij (by simpa using this)

theorem perm_range'_of_nodup (l : List Nat) (hlen : l.length = 9)
    (hmem : ∀ x ∈ l, 1 ≤ x ∧ x ≤ 9) (hnd : l.Nodup) :
    l.Perm (List.range' 1 9) := by
  have hsub : l ⊆ List.range' 1 9 := by
    intro x hx
    rw [List.mem_range']
    have := hmem x hx
    exact ⟨x - 1, by omega, by omega⟩
  obtain ⟨l', hperm, hsl⟩ := List.subperm_of_subset hnd hsub
  have hlen' : l'.length = 9 := by rw [hperm.length_eq, hlen]
  have heq : l' = List.range' 1 9 :=
    hsl.eq_of_length (by rw [hlen', List.length_range'])
  exact (heq ▸ hperm).symm

theorem nodup_of_perm_range' (l : List Nat) (h : l.Perm (List.range' 1 9)) :
    l.Nodup :=
  h.nodup_iff.mpr (List.nodup_range' 1 9)


theorem colList_length (b : Board) (c : Nat) : (colList b c).length = 9 := by
  simp [colList]

theorem boxList_length (b : Board) (p q : Nat) : (boxList b p q).length = 9 := by
  simp [boxList]

theorem colList_getD (b : Board) (c i : Nat) (hi : i < 9) :
    (colList b c).getD i 0 = getCell b i c := by
  rw [List.getD_eq_getElem _ 0 (by rw [colList_length]; exact hi)]
  simp [colList]

theorem boxList_getD (b : Board) (p q t : Nat) (ht : t < 9) :
    (boxList b p q).getD t 0 = getCell b (p * 3 + t / 3) (q * 3 + t % 3) := by
  rw [List.getD_eq_getElem _ 0 (by rw [boxList_length]; exact ht)]
  simp [boxList]

theorem is_valid_iff_perms (b : Board) (hb : wf9 b)
    (hfull : ∀ r < 9, ∀ c < 9, 1 ≤ getCell b r c ∧ getCell b r c ≤ 9) :
    is_valid b = true ↔
      ((∀ r < 9, (b.getD r []).Perm (List.range' 1 9)) ∧
       (∀ c < 9, (colList b c).Perm (List.range' 1 9)) ∧
       (∀ p < 3, ∀ q < 3, (boxList b p q).Perm (List.range' 1 9))) := by
  constructor
  · intro hval
    have hchar := (is_valid9_iff b hb).mp hval
    refine ⟨fun r hr => ?_, fun c hc => ?_, fun p hp q hq => ?_⟩
    · refine perm_range'_of_nodup _ (hb.2 r hr) ?_ ?_
      · intro x hx
        obtain ⟨i, hi, rfl⟩ := List.mem_iff_getElem.mp hx
        have hi9 : i < 9 := by rw [hb.2 r hr] at hi; exact hi
        have h2 := hfull r hr i hi9
        have h3 : (b.getD r [])[i] = getCell b r i :=
          (List.getD_eq_getElem _ 0 hi).symm
        rw [h3]
        exact h2
      · apply nodup_of_getElem_ne
        intro i j hi hj hij
        have hi9 : i < 9 := by rwa [hb.2 r hr] at hi
        have hj9 : j < 9 := by rwa [hb.2 r hr] at hj
        show getCell b r i ≠ getCell b r j
        obtain ⟨hrow, -, -⟩ :=
          (move_valid9_iff b r j (getCell b r j) hb).mp (hchar r hr j hj9)
        exact hrow i hi9 hij
    · refine perm_range'_of_nodup _ (colList_length b c) ?_ ?_
      · intro x hx
        rw [colList] at hx
        obtain ⟨i, hi', rfl⟩ := List.mem_map.mp hx
        rw [List.mem_range] at hi'
        exact hfull i hi' c hc
      · apply nodup_of_getElem_ne
        intro i j hi hj hij
        rw [colList_length] at hi hj
        rw [colList_getD b c i hi, colList_getD b c j hj]
        obtain ⟨-, hcol, -⟩ :=
          (move_valid9_iff b j c (getCell b j c) hb).mp (hchar j hj c hc)
        exact hcol i hi hij
    · refine perm_range'_of_nodup _ (boxList_length b p q) ?_ ?_
      · intro x hx
        rw [boxList] at hx
        obtain ⟨t, ht', rfl⟩ := List.mem_map.mp hx
        rw [List.mem_range] at ht'
        exact hfull _ (by omega) _ (by omega)
      · apply nodup_of_getElem_ne
        intro i j hi hj hij
        rw [boxList_length] at hi hj
        rw [boxList_getD b p q i hi, boxList_getD b p q j hj]
        obtain ⟨-, -, hbox⟩ :=
          (move_valid9_iff b (p * 3 + j / 3) (q * 3 + j % 3)
            (getCell b (p * 3 + j / 3) (q * 3 + j % 3)) hb).mp
            (hchar _ (by omega) _ (by omega))
        have e1 : (p * 3 + j / 3) / 3 * 3 = p * 3 := by omega
        have e2 : (q * 3 + j % 3) / 3 * 3 = q * 3 := by omega
        rw [e1, e2] at hbox
        apply hbox (i / 3) (by omega) (i % 3) (by omega)
        rintro ⟨hh1, hh2⟩
        omega
  · rintro ⟨hrows, hcols, hboxes⟩
    rw [is_valid9_iff b hb]
    intro row hrow col hcol
    rw [move_valid9_iff b row col _ hb]
    refine ⟨fun i hi hic => ?_, fun i hi hir => ?_, fun i hi j hj hnb => ?_⟩
    · have hnd := nodup_of_perm_range' _ (hrows row hrow)
      have hkey := getD_ne_of_nodup _ hnd i col
        (by rw [hb.2 row hrow]; exact hi) (by rw [hb.2 row hrow]; exact hcol) hic
      exact hkey
    · have hnd := nodup_of_perm_range' _ (hcols col hcol)
      have hkey := getD_ne_of_nodup _ hnd i row
        (by rw [colList_length]; exact hi) (by rw [colList_length]; exact hrow) hir
      rw [colList_getD b col i hi, colList_getD b col row hrow] at hkey
      exact hkey
    · have hp : row / 3 < 3 := by omega
      have hq : col / 3 < 3 := by omega
      have hnd := nodup_of_perm_range' _ (hboxes (row / 3) hp (col / 3) hq)
      have ht : i * 3 + j < 9 := by omega
      have ht0 : row % 3 * 3 + col % 3 < 9 := by omega
      have htne : i * 3 + j ≠ row % 3 * 3 + col % 3 := by
        intro hh
        exact hnb ⟨by omega, by omega⟩
      have hkey := getD_ne_of_nodup _ hnd (i * 3 + j) (row % 3 * 3 + col % 3)
        (by rw [boxList_length]; exact ht) (by rw [boxList_length]; exact ht0) htne
      rw [boxList_getD b _ _ _ ht, boxList_getD b _ _ _ ht0] at hkey
      have e1 : row / 3 * 3 + (i * 3 + j) / 3 = row / 3 * 3 + i := by omega
      have e2 : col / 3 * 3 + (i * 3 + j) % 3 = col / 3 * 3 + j := by omega
      have e3 : row / 3 * 3 + (row % 3 * 3 + col % 3) / 3 = row := by omega
      have e4 : col / 3 * 3 + (row % 3 * 3 + col % 3) % 3 = col := by omega
      rw [e1, e2, e3, e4] at hkey
      exact hkey

/-! ### The state-passing checker returns the board unchanged -/

theorem rowScanS_eq (row col num : Nat) : ∀ (l : List Nat) (b : Board),
    rowScanS row col num b l =
      ((l.all fun i => i == col || !(getCell b row i == num)), b) := by
  intro l
  induction l with
  | nil => intro b; rfl
  | cons i rest ih =>
    intro b
    have hbne : (i != col) = !(i == col) := rfl
    simp only [rowScanS, List.all_cons, hbne]
    cases hic : (i == col) with
    | true =>
      rw [if_neg (by simp), ih b]
      simp
    | false =>
      rw [if_pos (by simp)]
      cases hhit : (getCell b row i == num) with
      | true => simp
      | false => simp [ih b]

theorem colScanS_eq (row col num : Nat) : ∀ (l : List Nat) (b : Board),
    colScanS row col num b l =
      ((l.all fun i => i == row || !(getCell b i col == num)), b) := by
  intro l
  induction l with
  | nil => intro b; rfl
  | cons i rest ih =>
    intro b
    have hbne : (i != row) = !(i == row) := rfl
    simp only [colScanS, List.all_cons, hbne]
    cases hic : (i == row) with
    | true =>
      rw [if_neg (by simp), ih b]
      simp
    | false =>
      rw [if_pos (by simp)]
      cases hhit : (getCell b i col == num) with
      | true => simp
      | false => simp [ih b]

theorem boxScanS_eq (row col num : Nat) : ∀ (l : List (Nat × Nat)) (b : Board),
    boxScanS row col num b l =
      ((l.all fun q => (q.1 == row && q.2 == col) ||
        !(getCell b q.1 q.2 == num)), b) := by
  intro l
  induction l with
  | nil => intro b; rfl
  | cons q rest ih =>
    intro b
    simp only [boxScanS, List.all_cons]
    cases hic : (q.1 == row && q.2 == col) with
    | true =>
      rw [if_neg (by simp), ih b]
      simp
    | false =>
      rw [if_pos (by simp)]
      cases hhit : (getCell b q.1 q.2 == num) with
      | true => simp
      | false => simp [ih b]

theorem all_map_general {α β : Type} (f : α → β) (p : β → Bool) (l : List α) :
    (l.map f).all p = l.all fun x => p (f x) := by
  induction l with
  | nil => rfl
  | cons a t ih => simp only [List.map_cons, List.all_cons, ih]

theorem move_validS_eq (b : Board) (row col num : Nat) :
    move_validS b row col num = (move_valid b row col num, b) := by
  rw [move_validS]
  simp only [rowScanS_eq, colScanS_eq, boxScanS_eq]
  rw [move_valid]
  have hbox : ((boxCells b row col).all fun q =>
      (q.1 == row && q.2 == col) || !(getCell b q.1 q.2 == num)) =
      (let box_size := isqrt b.length
       let box_y := row / box_size * box_size
       let box_x := col / box_size * box_size
       (List.range box_size).all fun i =>
         (List.range box_size).all fun j =>
           (box_y + i == row && box_x + j == col) ||
             !(getCell b (box_y + i) (box_x + j) == num)) := by
    simp only [boxCells, List.all_flatMap, all_map_general]
  rw [hbox]
  cases h1 : (List.range (b.getD 0 []).length).all fun i =>
      i == col || !(getCell b row i == num) with
  | false => simp
  | true =>
    simp only [if_true]
    cases h2 : (List.range b.length).all fun i =>
        i == row || !(getCell b i col == num) with
    | false => simp
    | true => simp

theorem is_validS_go_eq : ∀ (l : List (Nat × Nat)) (b : Board),
    is_validS_go b l =
      ((l.all fun q => move_valid b q.1 q.2 (getCell b q.1 q.2)), b) := by
  intro l
  induction l with
  | nil => intro b; rfl
  | cons q rest ih =>
    intro b
    simp only [is_validS_go, move_validS_eq, List.all_cons]
    cases hc : move_valid b q.1 q.2 (getCell b q.1 q.2) with
    | true => simp [ih b]
    | false => simp

theorem all_cells_eq_is_valid (b : Board) :
    ((cellsOf b).all fun q => move_valid b q.1 q.2 (getCell b q.1 q.2)) =
      is_valid b := by
  rw [Bool.eq_iff_iff, List.all_eq_true, is_valid_iff_cells]
  constructor
  · intro h row hrow col hcol
    exact h (row, col) ((mem_cellsOf b row col).mpr ⟨hrow, hcol⟩)
  · rintro h ⟨row, col⟩ hq
    obtain ⟨hrow, hcol⟩ := (mem_cellsOf b row col).mp hq
    exact h row hrow col hcol

theorem is_validS_eq (b : Board) : is_validS b = (is_valid b, b) := by
  rw [is_validS, is_validS_go_eq, all_cells_eq_is_valid]

/-! ### The claims -/

/-- C1, counterexample: on the all-empty board every cell holds 0, yet
`is_valid` returns false — the presence of empty cells alone makes the scan
fail, so 0-valued cells are not exempt. -/
theorem c1_counterexample :
    (zeroGrid.all fun row => row.all fun x => x == 0) = true ∧
      is_valid zeroGrid = false := by
  constructor
  · decide
  · decide

/-- C1, amended: `is_valid` does not exempt 0-valued cells; it compares raw
stored values, so two empty cells sharing a row, a column, or a box force
`is_valid` to return false. -/
theorem c1_amended_zero_cells_conflict (b : Board) (r1 c1 r2 c2 : Nat)
    (hb : wf9 b) (hr1 : r1 < 9) (hc1 : c1 < 9) (hr2 : r2 < 9) (hc2 : c2 < 9)
    (hne : ¬(r1 = r2 ∧ c1 = c2)) (h1 : getCell b r1 c1 = 0)
    (h2 : getCell b r2 c2 = 0)
    (hunit : r1 = r2 ∨ c1 = c2 ∨ (r1 / 3 = r2 / 3 ∧ c1 / 3 = c2 / 3)) :
    is_valid b = false := by
  cases hval : is_valid b with
  | false => rfl
  | true =>
    exfalso
    have hchar := (is_valid9_iff b hb).mp hval r1 hr1 c1 hc1
    rw [h1] at hchar
    obtain ⟨hrow, hcol, hbox⟩ := (move_valid9_iff b r1 c1 0 hb).mp hchar
    rcases hunit with hr | hc | ⟨hbr, hbc⟩
    · subst hr
      have hcne : c2 ≠ c1 := fun hh => hne ⟨rfl, hh.symm⟩
      exact hrow c2 hc2 hcne h2
    · subst hc
      have hrne : r2 ≠ r1 := fun hh => hne ⟨hh.symm, rfl⟩
      exact hcol r2 hr2 hrne h2
    · have hi : r2 - r1 / 3 * 3 < 3 := by omega
      have hj : c2 - c1 / 3 * 3 < 3 := by omega
      have e1 : r1 / 3 * 3 + (r2 - r1 / 3 * 3) = r2 := by omega
      have e2 : c1 / 3 * 3 + (c2 - c1 / 3 * 3) = c2 := by omega
      have hnb : ¬(r1 / 3 * 3 + (r2 - r1 / 3 * 3) = r1 ∧
          c1 / 3 * 3 + (c2 - c1 / 3 * 3) = c1) := by
        rw [e1, e2]
        rintro ⟨u1, u2⟩
        exact hne ⟨u1.symm, u2.symm⟩
      have hval2 := hbox _ hi _ hj hnb
      rw [e1, e2] at hval2
      exact hval2 h2

/-- C1, amended, witness: the all-empty board instantiates the amended
claim at two empty cells in row 0. -/
theorem c1_amended_witness :
    wf9 zeroGrid ∧ getCell zeroGrid 0 0 = 0 ∧ getCell zeroGrid 0 1 = 0 ∧
      is_valid zeroGrid = false :=
  ⟨by decide, by decide, by decide,
    c1_amended_zero_cells_conflict zeroGrid 0 0 0 1 (by decide) (by decide)
      (by decide) (by decide) (by decide) (by decide) (by decide) (by decide)
      (Or.inl rfl)⟩

/-- C2, counterexample: `oneHole` has a solution (namely `solGrid`), yet
after `solver` returns, the grid is still incomplete — it has not been
mutated to a solved state. -/
theorem c2_counterexample :
    Solves solGrid oneHole ∧ is_complete (solver oneHole).1 = false := by
  constructor
  · decide
  · decide

/-- C2, amended: on a well-formed 9x9 grid with at least one solution the
solver terminates; on return the grid is unchanged rather than mutated to a
solved state, and the solved states are emitted through the print side
channel instead: at least one board is printed, and every printed board is
complete and valid. -/
theorem c2_amended_solver_emits (b : Board) (hb : wf9 b)
    (hs : ∃ s, Solves s b) :
    (solver b).1 = b ∧ (solver b).2 ≠ [] ∧
      ∀ p ∈ (solver b).2, is_complete p = true ∧ is_valid p = true := by
  obtain ⟨s, hsol⟩ := hs
  refine ⟨solverF_fst _ b, ?_, ?_⟩
  · exact solverF_complete (numZeros b) b (numZeros b + 1) hb rfl
      (Nat.lt_succ_self _) ⟨s, hsol⟩
  · intro p hp
    have hsound := solverF_sound (numZeros b + 1) b hb
      (solves_isValidExempt s b hsol hb) p hp
    exact ⟨hsound.2.1, hsound.2.2⟩

/-- C2, amended, witness: the amended claim instantiated at `oneHole`. -/
theorem c2_amended_witness :
    wf9 oneHole ∧ ((solver oneHole).1 = oneHole ∧ (solver oneHole).2 ≠ [] ∧
      ∀ p ∈ (solver oneHole).2, is_complete p = true ∧ is_valid p = true) :=
  ⟨by decide, c2_amended_solver_emits oneHole (by decide) ⟨solGrid, by decide⟩⟩

/-- C3: when the top-level `solver` call returns, every cell of the grid
holds exactly the value it held before the call: initially nonzero cells
are never overwritten on exit, and every tentatively filled cell has been
reset to 0. -/
theorem c3_solver_restores (b : Board) : (solver b).1 = b :=
  solverF_fst (numZeros b + 1) b

/-- C4: the whole-grid validator is the conjunction, over all cells the
source's loops visit, of the single-placement predicate applied to the
cell's current value. -/
theorem c4_is_valid_iff_all_cells (b : Board) :
    is_valid b = true ↔ ∀ row < b.length, ∀ col < (b.getD 0 []).length,
      move_valid b row col (getCell b row col) = true :=
  is_valid_iff_cells b

/-- C5: on an empty target cell of a well-formed grid, the placement
predicate accepts `v` iff `v` appears nowhere in the target row, nowhere in
the target column, and nowhere in the target box. -/
theorem c5_move_valid_empty_cell (b : Board) (r c v : Nat) (hb : wf9 b)
    (hr : r < 9) (hc : c < 9) (h0 : getCell b r c = 0) (hv1 : 1 ≤ v)
    (hv9 : v ≤ 9) :
    move_valid b r c v = true ↔
      ((∀ i < 9, getCell b r i ≠ v) ∧ (∀ i < 9, getCell b i c ≠ v) ∧
       (∀ i < 3, ∀ j < 3, getCell b (r / 3 * 3 + i) (c / 3 * 3 + j) ≠ v)) := by
  rw [move_valid9_iff b r c v hb]
  constructor
  · rintro ⟨h1, h2, h3⟩
    refine ⟨fun i hi => ?_, fun i hi => ?_, fun i hi j hj => ?_⟩
    · rcases eq_or_ne i c with rfl | hic
      · rw [h0]; omega
      · exact h1 i hi hic
    · rcases eq_or_ne i r with rfl | hir
      · rw [h0]; omega
      · exact h2 i hi hir
    · by_cases hq : r / 3 * 3 + i = r ∧ c / 3 * 3 + j = c
      · rw [hq.1, hq.2, h0]; omega
      · exact h3 i hi j hj hq
  · rintro ⟨h1, h2, h3⟩
    exact ⟨fun i hi _ => h1 i hi, fun i hi _ => h2 i hi,
      fun i hi j hj _ => h3 i hi j hj⟩

/-- C5, witness: the empty corner of `oneHole` with candidate value 1. -/
theorem c5_witness :
    wf9 oneHole ∧ getCell oneHole 0 0 = 0 ∧
      (move_valid oneHole 0 0 1 = true ↔
        ((∀ i < 9, getCell oneHole 0 i ≠ 1) ∧
         (∀ i < 9, getCell oneHole i 0 ≠ 1) ∧
         (∀ i < 3, ∀ j < 3,
           getCell oneHole (0 / 3 * 3 + i) (0 / 3 * 3 + j) ≠ 1))) :=
  ⟨by decide, by decide,
    c5_move_valid_empty_cell oneHole 0 0 1 (by decide) (by decide) (by decide)
      (by decide) (by decide) (by decide)⟩

/-- C6: a completely filled well-formed grid whose values all lie in
`[1, 9]` passes `is_valid` iff every row, every column, and every box is a
permutation of 1..9. -/
theorem c6_is_valid_iff_perms (b : Board) (hb : wf9 b)
    (hfull : ∀ r < 9, ∀ c < 9, 1 ≤ getCell b r c ∧ getCell b r c ≤ 9) :
    is_valid b = true ↔
      ((∀ r < 9, (b.getD r []).Perm (List.range' 1 9)) ∧
       (∀ c < 9, (colList b c).Perm (List.range' 1 9)) ∧
       (∀ p < 3, ∀ q < 3, (boxList b p q).Perm (List.range' 1 9))) :=
  is_valid_iff_perms b hb hfull

/-- C6, witness: the concrete solved board instantiates the equivalence. -/
theorem c6_witness :
    is_valid solGrid = true ∧
      ((∀ r < 9, (solGrid.getD r []).Perm (List.range' 1 9)) ∧
       (∀ c < 9, (colList solGrid c).Perm (List.range' 1 9)) ∧
       (∀ p < 3, ∀ q < 3, (boxList solGrid p q).Perm (List.range' 1 9))) :=
  ⟨by decide,
    (c6_is_valid_iff_perms solGrid (by decide) (by decide)).mp (by decide)⟩

/-- C7: the solver terminates on every well-formed 9x9 grid, with recursion
depth bounded by the number of empty cells: any fuel beyond `numZeros b`
yields the same result as `solver`, and `numZeros b ≤ 81`. -/
theorem c7_solver_terminates (b : Board) (f : Nat) (hb : wf9 b)
    (hf : numZeros b < f) :
    solverF f b = solver b ∧ numZeros b ≤ 81 :=
  ⟨solverF_eq_solver b f hb hf, numZeros_le_81 b hb⟩

/-- C7, witness: `oneHole` with generous fuel. -/
theorem c7_witness :
    wf9 oneHole ∧ numZeros oneHole < 82 ∧
      (solverF 82 oneHole = solver oneHole ∧ numZeros oneHole ≤ 81) :=
  ⟨by decide, by decide, c7_solver_terminates oneHole 82 (by decide) (by decide)⟩

/-- C8: the result of `move_valid` does not depend on the value stored at
the target cell: all three scans exclude the target, so any two grids of
the same shape that agree everywhere except possibly at `(r, c)` receive
the same verdict — in particular no self-conflict is reported when the
cell already holds the probed value. -/
theorem c8_move_valid_ignores_target (b b' : Board) (r c v : Nat)
    (hlen : b'.length = b.length)
    (hrow0 : (b'.getD 0 []).length = (b.getD 0 []).length)
    (hcell : ∀ r' c', ¬(r' = r ∧ c' = c) → getCell b' r' c' = getCell b r' c') :
    move_valid b' r c v = move_valid b r c v :=
  move_valid_congr b b' r c v hlen hrow0 hcell

/-- C8, witness: overwriting the probed cell of the empty board with 5
leaves the verdict on value 3 unchanged. -/
theorem c8_witness :
    (setCell zeroGrid 0 0 5).length = zeroGrid.length ∧
      move_valid (setCell zeroGrid 0 0 5) 0 0 3 = move_valid zeroGrid 0 0 3 :=
  ⟨by decide,
    c8_move_valid_ignores_target zeroGrid (setCell zeroGrid 0 0 5) 0 0 3
      (by decide) (by decide)
      (fun r' c' h => getCell_setCell_ne zeroGrid 0 0 5 r' c' h)⟩

/-- C9: the checker never mutates the grid: in state-passing form both
predicates return the board unchanged, paired with the pure verdict, so
repeated calls on the unchanged grid return identical results. -/
theorem c9_checker_pure (b : Board) (row col num : Nat) :
    move_validS b row col num = (move_valid b row col num, b) ∧
      is_validS b = (is_valid b, b) :=
  ⟨move_validS_eq b row col num, is_validS_eq b⟩

/-- C10: on a well-formed 9x9 grid, `is_complete` returns true iff every
cell holds a nonzero value. -/
theorem c10_is_complete_iff (b : Board) (hb : wf9 b) :
    is_complete b = true ↔ ∀ r < 9, ∀ c < 9, getCell b r c ≠ 0 :=
  is_complete9_iff b hb

/-- C10, witness: the equivalence instantiated at the solved board. -/
theorem c10_witness :
    wf9 solGrid ∧ (is_complete solGrid = true ↔
      ∀ r < 9, ∀ c < 9, getCell solGrid r c ≠ 0) :=
  ⟨by decide, c10_is_complete_iff solGrid (by decide)⟩

end Sudoku
